import Mathlib

/-!
Shallow embedding of `py4dlib.objects`.

This file embeds the tree-traversal and path-query core of
`py4dlib/objects.py`: the object-manager tree (`c4d.BaseObject` navigation),
the `ObjectIterator` state machine, the `ObjectHierarchy` snapshot/index, the
`get` path-query resolution, and the free functions `getNextObject`,
`getActiveObjects` and `findObjects`.

Objects of the host tree are modelled as nodes of a rose tree; an object
handle is the address (list of child indices) of a node inside the forest of
top-level objects, so that identity comparison of handles is address equality.
`GetUp`, `GetDown` and `GetNext` become partial functions on addresses.
-/

/-- A scene-graph object: its name (`GetName`), its c4d type id (`GetType`)
and its child objects in order. -/
inductive PTree : Type where
  | node (name : String) (otype : Int) (children : List PTree) : PTree

/-- The document: the list of top-level objects, in sibling order
(`doc.GetFirstObject` is the head). -/
abbrev Forest := List PTree

/-- An object handle: the address of a node in the forest.  The head indexes
the top-level object, the remaining entries index successive children. -/
abbrev Addr := List Nat

def PTree.name : PTree → String
  | .node n _ _ => n

def PTree.otype : PTree → Int
  | .node _ t _ => t

def PTree.children : PTree → List PTree
  | .node _ _ cs => cs

mutual

/-- Number of nodes of a tree. -/
def sizeT : PTree → Nat
  | .node _ _ cs => 1 + sizeL cs

/-- Total number of nodes of a list of trees. -/
def sizeL : List PTree → Nat
  | [] => 0
  | c :: cs => sizeT c + sizeL cs

end

/-- The subtree of `t` at a relative address. -/
def subAt? : PTree → Addr → Option PTree
  | t, [] => some t
  | t, j :: r =>
    match t.children[j]? with
    | none => none
    | some c => subAt? c r

/-- The node of the forest at an address (`none` if the address is invalid;
the empty address denotes no node). -/
def getAt? (f : Forest) : Addr → Option PTree
  | [] => none
  | i :: r =>
    match f[i]? with
    | none => none
    | some t => subAt? t r

/-- The ordered sibling list in which the node at `a ++ [i]` lives:
the whole forest for `a = []`, else the children of the node at `a`. -/
def childrenAt (f : Forest) : Addr → Option (List PTree)
  | [] => some f
  | a => (getAt? f a).map PTree.children

/-- `GetName` of the node at an address (`""` off the tree). -/
def nameAt (f : Forest) (a : Addr) : String :=
  match getAt? f a with
  | some t => t.name
  | none => ""

/-- `GetType` of the node at an address (`0` off the tree). -/
def otypeAt (f : Forest) (a : Addr) : Int :=
  match getAt? f a with
  | some t => t.otype
  | none => 0

/-- `GetUp`: the parent handle; a top-level object has no parent. -/
def up? : Addr → Option Addr
  | [] => none
  | [_] => none
  | a => some a.dropLast

/-- `GetDown`: the first child, when the node has children. -/
def down? (f : Forest) (a : Addr) : Option Addr :=
  match getAt? f a with
  | none => none
  | some t =>
    match t.children with
    | [] => none
    | _ :: _ => some (a ++ [0])

/-- `GetNext`: the next sibling, when one exists. -/
def next? (f : Forest) (a : Addr) : Option Addr :=
  match a.getLast? with
  | none => none
  | some i =>
    match childrenAt f a.dropLast with
    | none => none
    | some sibs => if i + 1 < sibs.length then some (a.dropLast ++ [i + 1]) else none

theorem up?_length_lt {a p : Addr} (h : up? a = some p) : p.length < a.length := by
  match a with
  | [] => simp [up?] at h
  | [_] => simp [up?] at h
  | x :: y :: r =>
    simp only [up?] at h
    cases h
    simp [List.length_dropLast]

/-! ## The `ObjectIterator` state machine

`ObjectIterator.__init__` stores the current object, the current depth level,
the stop-object list and the `init` flag; `next()` advances the state and
returns a `(op, lvl)` pair or raises `StopIteration`.  The stop list holds
`Option Addr` values because `children_only` puts the (possibly null) start
object itself into it. -/

structure IterState where
  curobj : Option Addr
  curlvl : Int
  stopobjs : List (Option Addr)
  init : Bool
deriving Repr, DecidableEq

/-- The body of the ascent loop of `ObjectIterator.next`:
`while not op.GetNext() and op.GetUp(): check stops; lvl -= 1; op = op.GetUp()`.
Returns the object and level at loop exit, or `none` when the loop raised
`StopIteration`.  The `fuel` argument only makes the recursion structural:
each `GetUp` drops one address component, so starting the fuel at `a.length`
(as `climbLoop` does) it can never run out. -/
def climbGo (f : Forest) (stops : List (Option Addr)) : Nat → Addr → Int → Option (Addr × Int)
  | fuel, a, lvl =>
    match next? f a with
    | some _ => some (a, lvl)
    | none =>
      match up? a with
      | none => some (a, lvl)
      | some p =>
        if some a ∈ stops ∨ some p ∈ stops then none
        else
          match fuel with
          | 0 => none
          | fuel + 1 => climbGo f stops fuel p (lvl - 1)

/-- The ascent loop of `ObjectIterator.next`, started at `a`. -/
def climbLoop (f : Forest) (a : Addr) (lvl : Int) (stops : List (Option Addr)) :
    Option (Addr × Int) :=
  climbGo f stops a.length a lvl

theorem up?_length_succ {a p : Addr} (h : up? a = some p) : a.length = p.length + 1 := by
  match a with
  | [] => simp [up?] at h
  | [_] => simp [up?] at h
  | x :: y :: r =>
    simp only [up?] at h
    cases h
    simp [List.length_dropLast]

/-- One call of `ObjectIterator.next()`: `none` models `StopIteration`,
otherwise the yielded `(op, lvl)` pair and the successor state. -/
def stepNext (f : Forest) (s : IterState) : Option ((Option Addr × Int) × IterState) :=
  if s.init then some ((s.curobj, s.curlvl), { s with init := false })
  else
    match s.curobj with
    | none => none
    | some a =>
      match down? f a with
      | some c =>
        if next? f a ∈ s.stopobjs ∨ some c ∈ s.stopobjs then none
        else some ((some c, s.curlvl + 1), { s with curobj := some c, curlvl := s.curlvl + 1 })
      | none =>
        if some a ∈ s.stopobjs then none
        else
          match climbLoop f a s.curlvl s.stopobjs with
          | none => none
          | some (b, lvl) =>
            match next? f b with
            | some nx =>
              if some nx ∈ s.stopobjs then none
              else some ((some nx, lvl), { s with curobj := some nx, curlvl := lvl })
            | none => none

/-- Driving the iterator to exhaustion (or until the fuel runs out): the list
of `(op, lvl)` pairs the Python `for` loop receives. -/
def runIter (f : Forest) : Nat → IterState → List (Option Addr × Int)
  | 0, _ => []
  | fuel + 1, s =>
    match stepNext f s with
    | none => []
    | some (p, s') => p :: runIter f fuel s'

/-- `ObjectIterator.__init__`.  The depth-of-start loop walks `GetUp` once per
address component, so it adds `a.length` to `startlvl`.  `children_only` puts
the start object into the stop list and suppresses the initial yield; a
non-empty `stopobj` argument (Python truthiness) is appended. -/
def mkIter (_f : Forest) (startobj : Option Addr) (stopobj : List (Option Addr))
    (children_only : Bool) (startlvl : Int) : IterState :=
  let lvl := startlvl + (match startobj with | some a => (a.length : Int) | none => 0)
  let stops := if children_only then [startobj] else []
  let stops := if stopobj.isEmpty then stops else stops ++ stopobj
  { curobj := startobj, curlvl := lvl, stopobjs := stops, init := !children_only }


/-! ## Pre-order traversal, defined recursively on the tree

`preT t a d` is the depth-first pre-order listing of the subtree `t` rooted at
address `a` and depth `d`, as `(op, lvl)` pairs; `preL cs a i d` lists the
subtrees `cs` sitting at child indices `i, i+1, …` of the node at `a`. -/

mutual

def preT : PTree → Addr → Int → List (Option Addr × Int)
  | .node _ _ cs, a, d => (some a, d) :: preL cs a 0 (d + 1)

def preL : List PTree → Addr → Nat → Int → List (Option Addr × Int)
  | [], _, _, _ => []
  | c :: cs, a, i, d => preT c (a ++ [i]) d ++ preL cs a (i + 1) d

end

theorem sizeT_pos (t : PTree) : 1 ≤ sizeT t := by
  cases t with
  | node nm ty cs => simp [sizeT]

theorem sizeT_le_of_mem {t : PTree} {cs : List PTree} (h : t ∈ cs) :
    sizeT t ≤ sizeL cs := by
  induction cs with
  | nil => cases h
  | cons c cs ih =>
    cases h with
    | head => simp [sizeL]
    | tail _ hm =>
      have := ih hm
      simp only [sizeL]
      omega

/-- The address of the last node of the subtree `t` at `a` in pre-order:
the end of the rightmost spine. -/
def lastA : PTree → Addr → Addr
  | .node _ _ [], a => a
  | .node _ _ (c :: cs), a =>
    lastA ((c :: cs).getLast (List.cons_ne_nil c cs)) (a ++ [cs.length])
termination_by t => sizeT t
decreasing_by
  have h1 : sizeT ((c :: cs).getLast (List.cons_ne_nil c cs)) ≤ sizeL (c :: cs) :=
    sizeT_le_of_mem (List.getLast_mem _)
  simp only [sizeT]
  omega

/-! ## Basic facts about addresses and navigation -/

theorem subAt?_concat (r : Addr) (t : PTree) (i : Nat) :
    subAt? t (r ++ [i]) = (subAt? t r).bind (fun c => c.children[i]?) := by
  induction r generalizing t with
  | nil =>
    simp only [List.nil_append, subAt?, Option.some_bind]
    cases h : t.children[i]? <;> simp [subAt?, h]
  | cons j r ih =>
    simp only [List.cons_append, subAt?]
    cases h : t.children[j]? <;> simp [ih]

theorem getAt?_concat (f : Forest) (a : Addr) (i : Nat) :
    getAt? f (a ++ [i]) = (childrenAt f a).bind (fun L => L[i]?) := by
  cases a with
  | nil =>
    simp only [List.nil_append, getAt?, childrenAt, Option.some_bind]
    cases h : f[i]? <;> simp [subAt?, h]
  | cons j r =>
    simp only [List.cons_append, getAt?, childrenAt]
    cases h : f[j]? with
    | none => simp
    | some t =>
      simp only [getAt?, h, subAt?_concat]
      cases hs : subAt? t r <;> simp

theorem up?_concat (a : Addr) (i : Nat) :
    up? (a ++ [i]) = if a.isEmpty then none else some a := by
  cases a with
  | nil => rfl
  | cons j r =>
    have h : up? ((j :: r) ++ [i]) = some ((j :: r) ++ [i]).dropLast := by
      cases r <;> rfl
    rw [h, List.dropLast_concat]
    rfl

theorem next?_concat (f : Forest) (a : Addr) (i : Nat) :
    next? f (a ++ [i]) =
      match childrenAt f a with
      | none => none
      | some L => if i + 1 < L.length then some (a ++ [i + 1]) else none := by
  simp only [next?, List.getLast?_concat, List.dropLast_concat]

theorem next?_ne_self (f : Forest) (a : Addr) : next? f a ≠ some a := by
  intro h
  simp only [next?] at h
  cases hl : a.getLast? with
  | none => simp [hl] at h
  | some i =>
    simp only [hl] at h
    cases hc : childrenAt f a.dropLast with
    | none => simp [hc] at h
    | some sibs =>
      simp only [hc] at h
      by_cases hlt : i + 1 < sibs.length
      · simp only [if_pos hlt, Option.some.injEq] at h
        have ha : a.dropLast ++ [i] = a := List.dropLast_append_getLast? _ hl
        rw [← ha] at h
        simp at h
      · simp [hlt] at h

theorem down?_of_children {f : Forest} {a : Addr} {nm : String} {ty : Int}
    {cs : List PTree} (h : getAt? f a = some (.node nm ty cs)) :
    down? f a = match cs with | [] => none | _ :: _ => some (a ++ [0]) := by
  cases cs <;> simp [down?, h, PTree.children]

/-! ## Running the iterator: unfolding lemmas -/

theorem runIter_stop {f : Forest} {s : IterState} (h : stepNext f s = none) :
    ∀ fuel, runIter f fuel s = [] := by
  intro fuel
  cases fuel with
  | zero => rfl
  | succ n => simp [runIter, h]

theorem runIter_emit {f : Forest} {s s' : IterState} {p : Option Addr × Int}
    (h : stepNext f s = some (p, s')) (fuel : Nat) :
    runIter f (fuel + 1) s = p :: runIter f fuel s' := by
  simp [runIter, h]

/-! ## Stop-set side conditions

During the traversal of the subtree under `a`, `ObjectIterator.next` compares
against the stop list only: proper extensions of `a`, the next sibling of `a`
(before descending from `a`), and possibly `none` (a missing `GetNext`).
`StopsOK` says none of these are stop objects, which holds both for the empty
stop list and for the `children_only` list `[some a₀]` one level down. -/

def StopsOK (f : Forest) (S : List (Option Addr)) (a : Addr) : Prop :=
  none ∉ S ∧ next? f a ∉ S ∧ ∀ s : Addr, s ≠ [] → some (a ++ s) ∉ S

theorem StopsOK_nil (f : Forest) (a : Addr) : StopsOK f [] a := by
  refine ⟨by simp, by simp, ?_⟩
  intro s _
  simp

theorem StopsOK_child {f : Forest} {S : List (Option Addr)} {a : Addr}
    (h : StopsOK f S a) (i : Nat) : StopsOK f S (a ++ [i]) := by
  obtain ⟨h1, h2, h3⟩ := h
  refine ⟨h1, ?_, ?_⟩
  · rw [next?_concat]
    cases hc : childrenAt f a with
    | none => exact h1
    | some L =>
      by_cases hi : i + 1 < L.length
      · simp only [hi, if_true]
        exact h3 [i + 1] (by simp)
      · simp only [hi, if_false]
        exact h1
  · intro s hs
    have := h3 ([i] ++ s) (by simp)
    simpa using this

/-! ## The rightmost spine -/

theorem lastA_leaf (nm : String) (ty : Int) (a : Addr) :
    lastA (.node nm ty []) a = a := by
  rw [lastA]

theorem lastA_node (nm : String) (ty : Int) (c : PTree) (cs : List PTree) (a : Addr) :
    lastA (.node nm ty (c :: cs)) a =
      lastA ((c :: cs).getLast (List.cons_ne_nil c cs)) (a ++ [cs.length]) := by
  rw [lastA]

theorem getElem?_cons_length (c : PTree) (cs : List PTree) :
    (c :: cs)[cs.length]? = some ((c :: cs).getLast (List.cons_ne_nil c cs)) := by
  rw [List.getElem?_eq_getElem (by simp)]
  congr 1
  rw [List.getLast_eq_getElem]
  congr 1

theorem lastA_ext (t : PTree) (b : Addr) : ∃ r : Addr, lastA t b = b ++ r := by
  suffices h : ∀ (n : Nat) (t : PTree) (b : Addr), sizeT t ≤ n → ∃ r : Addr, lastA t b = b ++ r by
    exact h (sizeT t) t b le_rfl
  intro n
  induction n with
  | zero =>
    intro t b hle
    have := sizeT_pos t
    omega
  | succ n ih =>
    intro t b hle
    cases t with
    | node nm ty cs =>
      cases cs with
      | nil => exact ⟨[], by rw [lastA_leaf, List.append_nil]⟩
      | cons c cs =>
        have hm : sizeT ((c :: cs).getLast (List.cons_ne_nil c cs)) ≤ sizeL (c :: cs) :=
          sizeT_le_of_mem (List.getLast_mem _)
        have hle' : sizeT ((c :: cs).getLast (List.cons_ne_nil c cs)) ≤ n := by
          simp only [sizeT] at hle
          omega
        obtain ⟨r, hr⟩ := ih _ (b ++ [cs.length]) hle'
        exact ⟨[cs.length] ++ r, by rw [lastA_node, hr, List.append_assoc]⟩

theorem getAt?_lastA {f : Forest} {t : PTree} {b : Addr} (h : getAt? f b = some t) :
    ∃ nm ty, getAt? f (lastA t b) = some (.node nm ty []) := by
  suffices hs : ∀ (n : Nat) (t : PTree) (b : Addr), sizeT t ≤ n → getAt? f b = some t →
      ∃ nm ty, getAt? f (lastA t b) = some (.node nm ty []) by
    exact hs (sizeT t) t b le_rfl h
  intro n
  induction n with
  | zero =>
    intro t b hle
    have := sizeT_pos t
    omega
  | succ n ih =>
    intro t b hle h
    cases t with
    | node nm ty cs =>
      cases cs with
      | nil => exact ⟨nm, ty, by rw [lastA_leaf]; exact h⟩
      | cons c cs =>
        have hb : b ≠ [] := by
          intro hb
          rw [hb] at h
          simp [getAt?] at h
        have hch : childrenAt f b = some (c :: cs) := by
          cases b with
          | nil => exact absurd rfl hb
          | cons j r => simp [childrenAt, h, PTree.children]
        have hlc : getAt? f (b ++ [cs.length]) = some ((c :: cs).getLast (List.cons_ne_nil c cs)) := by
          rw [getAt?_concat, hch, Option.some_bind, getElem?_cons_length]
        have hm : sizeT ((c :: cs).getLast (List.cons_ne_nil c cs)) ≤ sizeL (c :: cs) :=
          sizeT_le_of_mem (List.getLast_mem _)
        have hle' : sizeT ((c :: cs).getLast (List.cons_ne_nil c cs)) ≤ n := by
          simp only [sizeT] at hle
          omega
        obtain ⟨nm', ty', hres⟩ := ih _ (b ++ [cs.length]) hle' hlc
        exact ⟨nm', ty', by rw [lastA_node]; exact hres⟩

/-! ## Behaviour of the ascent loop -/

theorem climb_exit_next {f : Forest} {a : Addr} {nx : Addr} (h : next? f a = some nx)
    (lvl : Int) (S : List (Option Addr)) : climbLoop f a lvl S = some (a, lvl) := by
  rw [climbLoop, climbGo, h]

theorem climb_exit_top {f : Forest} {a : Addr} (h1 : next? f a = none) (h2 : up? a = none)
    (lvl : Int) (S : List (Option Addr)) : climbLoop f a lvl S = some (a, lvl) := by
  rw [climbLoop, climbGo, h1, h2]

theorem climb_step {f : Forest} {a p : Addr} {S : List (Option Addr)}
    (h1 : next? f a = none) (h2 : up? a = some p)
    (h3 : ¬(some a ∈ S ∨ some p ∈ S)) (lvl : Int) :
    climbLoop f a lvl S = climbLoop f p (lvl - 1) S := by
  rw [climbLoop, climbGo, h1, h2, up?_length_succ h2]
  simp only [if_neg h3]
  rfl

theorem climb_stopped {f : Forest} {a p : Addr} {S : List (Option Addr)}
    (h1 : next? f a = none) (h2 : up? a = some p)
    (h3 : some a ∈ S ∨ some p ∈ S) (lvl : Int) :
    climbLoop f a lvl S = none := by
  rw [climbLoop, climbGo, h1, h2]
  simp only [if_pos h3]

/-- Climbing out of a fully-traversed subtree: from the last pre-order node of
the subtree `t` at `b`, the ascent loop walks the rightmost spine (all of which
lacks next siblings) back up to `b` and continues exactly as a climb started at
`b` itself, provided no spine node or spine parent is a stop object. -/
theorem climb_lastA {f : Forest} {S : List (Option Addr)} :
    ∀ (n : Nat) (t : PTree) (b : Addr), sizeT t ≤ n → getAt? f b = some t →
      some b ∉ S → (∀ s : Addr, s ≠ [] → some (b ++ s) ∉ S) →
      ∀ lvl : Int,
        climbLoop f (lastA t b) (lvl + ((lastA t b).length : Int) - (b.length : Int)) S
          = climbLoop f b lvl S := by
  intro n
  induction n with
  | zero =>
    intro t b hle
    have := sizeT_pos t
    omega
  | succ n ih =>
    intro t b hle ht hb hext lvl
    cases t with
    | node nm ty cs =>
      cases cs with
      | nil =>
        rw [lastA_leaf]
        have : lvl + (b.length : Int) - (b.length : Int) = lvl := by ring
        rw [this]
      | cons c cs =>
        have hbne : b ≠ [] := by
          intro hb0
          rw [hb0] at ht
          simp [getAt?] at ht
        have hch : childrenAt f b = some (c :: cs) := by
          cases b with
          | nil => exact absurd rfl hbne
          | cons j r => simp [childrenAt, ht, PTree.children]
        have hlc : getAt? f (b ++ [cs.length]) = some ((c :: cs).getLast (List.cons_ne_nil c cs)) := by
          rw [getAt?_concat, hch, Option.some_bind, getElem?_cons_length]
        have hle' : sizeT ((c :: cs).getLast (List.cons_ne_nil c cs)) ≤ n := by
          have hm : sizeT ((c :: cs).getLast (List.cons_ne_nil c cs)) ≤ sizeL (c :: cs) :=
            sizeT_le_of_mem (List.getLast_mem _)
          simp only [sizeT] at hle
          omega
        have hbk : some (b ++ [cs.length]) ∉ S := hext [cs.length] (by simp)
        have hextk : ∀ s : Addr, s ≠ [] → some ((b ++ [cs.length]) ++ s) ∉ S := by
          intro s hs
          have := hext ([cs.length] ++ s) (by simp)
          simpa [List.append_assoc] using this
        have hstep := ih _ (b ++ [cs.length]) hle' hlc hbk hextk (lvl + 1)
        rw [lastA_node]
        have harith :
            lvl + ((lastA ((c :: cs).getLast (List.cons_ne_nil c cs)) (b ++ [cs.length])).length : Int)
                - (b.length : Int)
              = (lvl + 1) +
                ((lastA ((c :: cs).getLast (List.cons_ne_nil c cs)) (b ++ [cs.length])).length : Int)
                - ((b ++ [cs.length]).length : Int) := by
          simp only [List.length_append, List.length_cons, List.length_nil]
          push_cast
          ring
        rw [harith, hstep]
        have hnk : next? f (b ++ [cs.length]) = none := by
          rw [next?_concat, hch]
          simp
        have hupk : up? (b ++ [cs.length]) = some b := by
          rw [up?_concat]
          simp [hbne]
        have hnot : ¬(some (b ++ [cs.length]) ∈ S ∨ some b ∈ S) := by
          push_neg
          exact ⟨hbk, hb⟩
        rw [climb_step hnk hupk hnot]
        have : lvl + 1 - 1 = lvl := by ring
        rw [this]

/-! ## Single-step evaluation lemmas for `stepNext` -/

theorem step_init (f : Forest) (c : Option Addr) (lvl : Int) (S : List (Option Addr)) :
    stepNext f { curobj := c, curlvl := lvl, stopobjs := S, init := true }
      = some ((c, lvl), { curobj := c, curlvl := lvl, stopobjs := S, init := false }) := by
  simp [stepNext]

theorem step_none (f : Forest) (lvl : Int) (S : List (Option Addr)) :
    stepNext f { curobj := none, curlvl := lvl, stopobjs := S, init := false } = none := by
  simp [stepNext]

theorem step_down {f : Forest} {a c : Addr} {S : List (Option Addr)}
    (hd : down? f a = some c) (h1 : next? f a ∉ S) (h2 : some c ∉ S) (d : Int) :
    stepNext f { curobj := some a, curlvl := d, stopobjs := S, init := false }
      = some ((some c, d + 1),
          { curobj := some c, curlvl := d + 1, stopobjs := S, init := false }) := by
  simp [stepNext, hd, h1, h2]

theorem step_down_stop {f : Forest} {a c : Addr} {S : List (Option Addr)}
    (hd : down? f a = some c) (h : next? f a ∈ S ∨ some c ∈ S) (d : Int) :
    stepNext f { curobj := some a, curlvl := d, stopobjs := S, init := false } = none := by
  simp [stepNext, hd, h]

theorem step_stop_self {f : Forest} {a : Addr} {S : List (Option Addr)}
    (hd : down? f a = none) (h : some a ∈ S) (d : Int) :
    stepNext f { curobj := some a, curlvl := d, stopobjs := S, init := false } = none := by
  simp [stepNext, hd, h]

theorem step_climb_stopped {f : Forest} {a : Addr} {S : List (Option Addr)} {d : Int}
    (hd : down? f a = none) (hmem : some a ∉ S)
    (hcl : climbLoop f a d S = none) :
    stepNext f { curobj := some a, curlvl := d, stopobjs := S, init := false } = none := by
  simp [stepNext, hd, hmem, hcl]

theorem step_climb_next {f : Forest} {a e nx : Addr} {S : List (Option Addr)} {d lvl : Int}
    (hd : down? f a = none) (hmem : some a ∉ S)
    (hcl : climbLoop f a d S = some (e, lvl))
    (hnx : next? f e = some nx) (hnxmem : some nx ∉ S) :
    stepNext f { curobj := some a, curlvl := d, stopobjs := S, init := false }
      = some ((some nx, lvl),
          { curobj := some nx, curlvl := lvl, stopobjs := S, init := false }) := by
  simp [stepNext, hd, hmem, hcl, hnx, hnxmem]

theorem step_climb_end {f : Forest} {a e : Addr} {S : List (Option Addr)} {d lvl : Int}
    (hd : down? f a = none) (hmem : some a ∉ S)
    (hcl : climbLoop f a d S = some (e, lvl)) (hnx : next? f e = none) :
    stepNext f { curobj := some a, curlvl := d, stopobjs := S, init := false } = none := by
  simp [stepNext, hd, hmem, hcl, hnx]

theorem preT_eq (c : PTree) (a : Addr) (d : Int) :
    preT c a d = (some a, d) :: preL c.children a 0 (d + 1) := by
  cases c
  simp [preT, PTree.children]

/-! ## Helper facts about sibling lists -/

theorem drop_facts {L : List PTree} {i : Nat} {c2 : PTree} {cs2 : List PTree}
    (h : L.drop i = c2 :: cs2) :
    L[i]? = some c2 ∧ L.length = i + cs2.length + 1 := by
  constructor
  · have hd := List.getElem?_drop L i 0
    rw [h] at hd
    simpa using hd.symm
  · have hl := congrArg List.length h
    simp only [List.length_drop, List.length_cons] at hl
    omega

theorem getAt_child {f : Forest} {a : Addr} {L : List PTree} {i : Nat} {c2 : PTree}
    (hch : childrenAt f a = some L) (hi : L[i]? = some c2) :
    getAt? f (a ++ [i]) = some c2 := by
  rw [getAt?_concat, hch, Option.some_bind, hi]

theorem next_child_some {f : Forest} {a : Addr} {L : List PTree} {i : Nat}
    (hch : childrenAt f a = some L) (hi : i + 1 < L.length) :
    next? f (a ++ [i]) = some (a ++ [i + 1]) := by
  rw [next?_concat, hch]
  simp [hi]

theorem next_child_none {f : Forest} {a : Addr} {L : List PTree} {i : Nat}
    (hch : childrenAt f a = some L) (hi : ¬ i + 1 < L.length) :
    next? f (a ++ [i]) = none := by
  rw [next?_concat, hch]
  simp [hi]

/-- Simulation: parked (already emitted) at a node `a` carrying subtree `t`,
with a stop list that does not interfere at or below `a`, the iterator next
emits exactly the pre-order of `t` minus its root and ends up parked on the
last pre-order node of `t`, with its level tracking the node depth. -/
theorem runT (f : Forest) (S : List (Option Addr)) :
    ∀ (n : Nat) (t : PTree) (a : Addr) (d : Int) (fuel : Nat),
      sizeT t ≤ n → getAt? f a = some t → StopsOK f S a →
      runIter f (sizeT t - 1 + fuel)
          { curobj := some a, curlvl := d, stopobjs := S, init := false }
        = preL t.children a 0 (d + 1) ++
          runIter f fuel
            { curobj := some (lastA t a),
              curlvl := d + ((lastA t a).length : Int) - (a.length : Int),
              stopobjs := S, init := false } := by
  intro n
  induction n with
  | zero =>
    intro t a d fuel hle _ _
    exact absurd hle (by have := sizeT_pos t; omega)
  | succ n ih =>
    intro t a d fuel hle ht hok
    cases t with
    | node nm ty cs =>
    cases cs with
    | nil =>
      rw [lastA_leaf]
      have h1 : sizeT (PTree.node nm ty []) - 1 + fuel = fuel := by
        simp [sizeT, sizeL]
      have h2 : d + ((a.length : Int)) - (a.length : Int) = d := by ring
      rw [h1, h2]
      simp [PTree.children, preL]
    | cons c cs =>
      have hbne : a ≠ [] := by
        intro h0
        rw [h0] at ht
        simp [getAt?] at ht
      have hch : childrenAt f a = some (c :: cs) := by
        cases a with
        | nil => exact absurd rfl hbne
        | cons j r => simp [childrenAt, ht, PTree.children]
      have hszL : sizeL (c :: cs) ≤ n := by
        simp only [sizeT] at hle
        omega
      have hdown : down? f a = some (a ++ [0]) := by
        rw [down?_of_children ht]
      have hstep := step_down hdown hok.2.1 (hok.2.2 [0] (by simp)) d
      have hfuel : sizeT (PTree.node nm ty (c :: cs)) - 1 + fuel
          = (sizeL (c :: cs) - 1 + fuel) + 1 := by
        have := sizeT_pos c
        simp only [sizeT, sizeL]
        omega
      rw [hfuel, runIter_emit hstep]
      have inner : ∀ (cs2 : List PTree) (c2 : PTree) (i : Nat) (fuel2 : Nat),
          (c :: cs).drop i = c2 :: cs2 →
          runIter f (sizeL (c2 :: cs2) - 1 + fuel2)
              { curobj := some (a ++ [i]), curlvl := d + 1, stopobjs := S, init := false }
            = preL c2.children (a ++ [i]) 0 (d + 1 + 1) ++
              (preL cs2 a (i + 1) (d + 1) ++
              runIter f fuel2
                { curobj := some (lastA ((c2 :: cs2).getLast (List.cons_ne_nil c2 cs2))
                    (a ++ [i + cs2.length])),
                  curlvl := d + ((lastA ((c2 :: cs2).getLast (List.cons_ne_nil c2 cs2))
                    (a ++ [i + cs2.length])).length : Int) - (a.length : Int),
                  stopobjs := S, init := false }) := by
        intro cs2
        induction cs2 with
        | nil =>
          intro c2 i fuel2 hdrop
          obtain ⟨hget, _⟩ := drop_facts hdrop
          have hc2 : getAt? f (a ++ [i]) = some c2 := getAt_child hch hget
          have hc2n : sizeT c2 ≤ n :=
            le_trans (sizeT_le_of_mem (List.getElem?_mem hget)) hszL
          have hres := ih c2 (a ++ [i]) (d + 1) fuel2 hc2n hc2 (StopsOK_child hok i)
          have hsz1 : sizeL [c2] - 1 + fuel2 = sizeT c2 - 1 + fuel2 := by
            simp [sizeL]
          have hlv : d + 1 + ((lastA c2 (a ++ [i])).length : Int) - ((a ++ [i]).length : Int)
              = d + ((lastA c2 (a ++ [i])).length : Int) - (a.length : Int) := by
            simp only [List.length_append, List.length_cons, List.length_nil]
            push_cast
            ring
          rw [hsz1, hres, hlv]
          simp [preL]
        | cons c3 cs3 ihL =>
          intro c2 i fuel2 hdrop
          obtain ⟨hget, hlen⟩ := drop_facts hdrop
          have hc2 : getAt? f (a ++ [i]) = some c2 := getAt_child hch hget
          have hc2n : sizeT c2 ≤ n :=
            le_trans (sizeT_le_of_mem (List.getElem?_mem hget)) hszL
          have hdrop' : (c :: cs).drop (i + 1) = c3 :: cs3 := by
            rw [← List.tail_drop, hdrop]
            rfl
          have hres := ih c2 (a ++ [i]) (d + 1) (sizeL (c3 :: cs3) + fuel2) hc2n hc2
            (StopsOK_child hok i)
          have hsz2 : sizeL (c2 :: c3 :: cs3) - 1 + fuel2
              = sizeT c2 - 1 + (sizeL (c3 :: cs3) + fuel2) := by
            have := sizeT_pos c2
            simp only [sizeL]
            omega
          obtain ⟨nm', ty', hla⟩ := getAt?_lastA hc2
          have hdla : down? f (lastA c2 (a ++ [i])) = none := by
            rw [down?_of_children hla]
          obtain ⟨r, hr⟩ := lastA_ext c2 (a ++ [i])
          have hlamem : some (lastA c2 (a ++ [i])) ∉ S := by
            rw [hr, List.append_assoc]
            exact hok.2.2 ([i] ++ r) (by simp)
          have hexts : ∀ s : Addr, s ≠ [] → some ((a ++ [i]) ++ s) ∉ S := by
            intro s _
            rw [List.append_assoc]
            exact hok.2.2 ([i] ++ s) (by simp)
          have hclimb := climb_lastA (sizeT c2) c2 (a ++ [i]) le_rfl hc2
            (hok.2.2 [i] (by simp)) hexts (d + 1)
          have hnx : next? f (a ++ [i]) = some (a ++ [i + 1]) := by
            refine next_child_some hch ?_
            simp only [List.length_cons] at hlen ⊢
            omega
          have hcl2 : climbLoop f (a ++ [i]) (d + 1) S = some (a ++ [i], d + 1) :=
            climb_exit_next hnx (d + 1) S
          rw [hcl2] at hclimb
          have hstep2 := step_climb_next hdla hlamem hclimb hnx
            (hok.2.2 [i + 1] (by simp))
          have hfr : sizeL (c3 :: cs3) + fuel2 = (sizeL (c3 :: cs3) - 1 + fuel2) + 1 := by
            have := sizeT_pos c3
            simp only [sizeL]
            omega
          have hresL := ihL c3 (i + 1) fuel2 hdrop'
          rw [hsz2, hres, hfr, runIter_emit hstep2, hresL]
          have hgl : (c2 :: c3 :: cs3).getLast (List.cons_ne_nil c2 (c3 :: cs3))
              = (c3 :: cs3).getLast (List.cons_ne_nil c3 cs3) := rfl
          have hidx : i + (c3 :: cs3).length = i + 1 + cs3.length := by
            simp only [List.length_cons]
            omega
          rw [hgl, hidx]
          simp [preL, preT_eq, List.append_assoc]
      have hres0 := inner cs c 0 fuel (by simp)
      rw [hres0, lastA_node]
      simp [preL, preT_eq, PTree.children, List.append_assoc]

/-! ## FullSubtree traversal from a root, and ChildrenOnly traversal -/

/-- In a single-rooted document, `next?` of the root is `none`. -/
theorem next_top_single (t : PTree) : next? [t] [0] = none := by
  have h : next? [t] ([] ++ [0]) = none := by
    refine next_child_none (L := [t]) rfl ?_
    simp
  simpa using h

theorem mkIter_full_eval (f : Forest) :
    mkIter f (some [0]) [] false (-1)
      = { curobj := some [0], curlvl := 0, stopobjs := [], init := true } := by
  simp [mkIter]

/-- FullSubtree (`children_only=False`, no stop objects) over the root of a
single-rooted tree yields exactly the whole tree in depth-first pre-order. -/
theorem fullSubtree_root_preorder (t : PTree) (extra : Nat) :
    runIter [t] (sizeT t + extra) (mkIter [t] (some [0]) [] false (-1))
      = preT t [0] 0 := by
  rw [mkIter_full_eval]
  have hget : getAt? [t] [0] = some t := by simp [getAt?, subAt?]
  have hf : sizeT t + extra = (sizeT t - 1 + extra) + 1 := by
    have := sizeT_pos t
    omega
  rw [hf, runIter_emit (step_init [t] (some [0]) 0 [])]
  rw [runT [t] [] (sizeT t) t [0] 0 extra le_rfl hget (StopsOK_nil [t] [0])]
  obtain ⟨nm', ty', hla⟩ := getAt?_lastA hget
  have hdla : down? [t] (lastA t [0]) = none := by
    rw [down?_of_children hla]
  have hclimb := climb_lastA (S := []) (sizeT t) t [0] le_rfl hget (by simp)
    (by intro s _; simp) 0
  have hcl0 : climbLoop [t] [0] 0 [] = some ([0], 0) :=
    climb_exit_top (next_top_single t) rfl 0 []
  rw [hcl0] at hclimb
  have hstop : stepNext [t]
      { curobj := some (lastA t [0]),
        curlvl := 0 + ((lastA t [0]).length : Int) - (([0] : Addr).length : Int),
        stopobjs := [], init := false } = none :=
    step_climb_end hdla (by simp) hclimb (next_top_single t)
  rw [runIter_stop hstop]
  rw [preT_eq]
  simp

theorem stopsOK_self (f : Forest) (a0 : Addr) : StopsOK f [some a0] a0 := by
  refine ⟨by simp, ?_, ?_⟩
  · simp only [List.mem_singleton]
    exact next?_ne_self f a0
  · intro s hs
    simp only [List.mem_singleton, Option.some.injEq]
    intro heq
    have hl := congrArg List.length heq
    simp only [List.length_append] at hl
    exact hs (List.length_eq_zero.mp (by omega))

/-- ChildrenOnly (`children_only=True`, no stop objects) started at a node
yields exactly the proper descendants of that node, in depth-first pre-order,
at their true depths, and never ascends through the start node's parent. -/
theorem childrenOnly_descendants (f : Forest) (a0 : Addr) (t : PTree) (extra : Nat)
    (ht : getAt? f a0 = some t) :
    runIter f (sizeT t + extra) (mkIter f (some a0) [] true (-1))
      = preL t.children a0 0 (a0.length : Int) := by
  have hbne : a0 ≠ [] := by
    intro h0
    rw [h0] at ht
    simp [getAt?] at ht
  have hmk : mkIter f (some a0) [] true (-1)
      = { curobj := some a0, curlvl := -1 + (a0.length : Int),
          stopobjs := [some a0], init := false } := by
    simp [mkIter]
  rw [hmk]
  have hok := stopsOK_self f a0
  cases t with
  | node nm ty cs =>
  cases cs with
  | nil =>
    have hd : down? f a0 = none := by
      rw [down?_of_children ht]
    have hstop := step_stop_self hd (List.mem_singleton_self (some a0)) (-1 + (a0.length : Int))
    rw [runIter_stop hstop]
    simp [PTree.children, preL]
  | cons c cs =>
    have hch : childrenAt f a0 = some (c :: cs) := by
      cases a0 with
      | nil => exact absurd rfl hbne
      | cons j r => simp [childrenAt, ht, PTree.children]
    have hf : sizeT (PTree.node nm ty (c :: cs)) + extra
        = sizeT (PTree.node nm ty (c :: cs)) - 1 + (extra + 1) := by
      have := sizeT_pos (PTree.node nm ty (c :: cs))
      omega
    rw [hf, runT f [some a0] (sizeT (PTree.node nm ty (c :: cs)))
      (PTree.node nm ty (c :: cs)) a0 (-1 + (a0.length : Int)) (extra + 1) le_rfl ht hok]
    -- the iterator then stops while climbing out of the last child's subtree
    rw [lastA_node]
    have hglast : (c :: cs)[cs.length]? = some ((c :: cs).getLast (List.cons_ne_nil c cs)) :=
      getElem?_cons_length c cs
    have hlc : getAt? f (a0 ++ [cs.length]) = some ((c :: cs).getLast (List.cons_ne_nil c cs)) :=
      getAt_child hch hglast
    obtain ⟨nm', ty', hla⟩ := getAt?_lastA hlc
    have hdla : down? f (lastA ((c :: cs).getLast (List.cons_ne_nil c cs)) (a0 ++ [cs.length])) = none := by
      rw [down?_of_children hla]
    obtain ⟨r, hr⟩ := lastA_ext ((c :: cs).getLast (List.cons_ne_nil c cs)) (a0 ++ [cs.length])
    have hlamem : some (lastA ((c :: cs).getLast (List.cons_ne_nil c cs)) (a0 ++ [cs.length]))
        ∉ ([some a0] : List (Option Addr)) := by
      rw [hr, List.append_assoc]
      simp only [List.mem_singleton, Option.some.injEq]
      intro heq
      have hl := congrArg List.length heq
      simp at hl
    have hexts : ∀ s : Addr, s ≠ [] →
        some ((a0 ++ [cs.length]) ++ s) ∉ ([some a0] : List (Option Addr)) := by
      intro s _
      simp only [List.mem_singleton, Option.some.injEq]
      intro heq
      have hl := congrArg List.length heq
      simp at hl
    have hkmem : some (a0 ++ [cs.length]) ∉ ([some a0] : List (Option Addr)) := by
      simp only [List.mem_singleton, Option.some.injEq]
      intro heq
      have hl := congrArg List.length heq
      simp at hl
    have harith : -1 + (a0.length : Int) +
          ((lastA ((c :: cs).getLast (List.cons_ne_nil c cs)) (a0 ++ [cs.length])).length : Int)
          - (a0.length : Int)
        = (-1 + (a0.length : Int) + 1) +
          ((lastA ((c :: cs).getLast (List.cons_ne_nil c cs)) (a0 ++ [cs.length])).length : Int)
          - ((a0 ++ [cs.length]).length : Int) := by
      simp only [List.length_append, List.length_cons, List.length_nil]
      push_cast
      ring
    rw [harith]
    have hclimb := climb_lastA (sizeT ((c :: cs).getLast (List.cons_ne_nil c cs)))
      ((c :: cs).getLast (List.cons_ne_nil c cs)) (a0 ++ [cs.length]) le_rfl hlc hkmem hexts
      (-1 + (a0.length : Int) + 1)
    have hnk : next? f (a0 ++ [cs.length]) = none := by
      refine next_child_none hch ?_
      simp
    have hupk : up? (a0 ++ [cs.length]) = some a0 := by
      rw [up?_concat]
      simp [hbne]
    have hclstop : climbLoop f (a0 ++ [cs.length]) (-1 + (a0.length : Int) + 1) [some a0] = none := by
      refine climb_stopped hnk hupk ?_ _
      right
      simp
    rw [hclstop] at hclimb
    have hstop := step_climb_stopped hdla hlamem hclimb
    rw [runIter_stop hstop]
    have hd1 : -1 + (a0.length : Int) + 1 = (a0.length : Int) := by ring
    rw [hd1]
    simp [PTree.children]

/-! ## Claim-level results for the iterator -/

/-- The size of the subtree hanging at an address (`0` off the tree). -/
def sizeAt (f : Forest) (a : Addr) : Nat :=
  match getAt? f a with
  | some t => sizeT t
  | none => 0

/-- A two-child document: `R` with children `A` and `B`. -/
def exTreeAB : Forest := [PTree.node "R" 0 [PTree.node "A" 0 [], PTree.node "B" 0 []]]

/-- A one-child document: `R` with child `A`. -/
def exRA : Forest := [PTree.node "R" 0 [PTree.node "A" 0 []]]

/-- C1, counterexample.  Claim C1 says a FullSubtree (`children_only=False`,
no stop objects) iteration over any start node yields exactly the N nodes of
that node's subtree, each once, in pre-order.  Starting at `A` (address
`[0, 0]`, a leaf, so N = 1) in the tree `R(A, B)`, the iterator in fact yields
two pairs, the second being `B` (`[0, 1]`), which is not in `A`'s subtree:
after exhausting the subtree the traversal escapes to the next sibling. -/
theorem C1_fullsubtree_cex :
    runIter exTreeAB 10 (mkIter exTreeAB (some [0, 0]) [] false (-1))
        = [(some [0, 0], 1), (some [0, 1], 1)] ∧
    sizeAt exTreeAB [0, 0] = 1 ∧
    List.isPrefixOf [0, 0] [0, 1] = false ∧
    (runIter exTreeAB 10 (mkIter exTreeAB (some [0, 0]) [] false (-1))).length ≠ 1 := by
  decide

/-- C1, amended.  For a start node that is the root of the tree (no parent and
no next sibling), a FullSubtree `ObjectIterator` (`children_only=False`, no
stop objects) yields exactly the nodes of the subtree, each exactly once, in
depth-first pre-order — a parent before its descendants, siblings in link
order — as `(node, depth)` pairs: the run equals the pre-order listing
`preT t [0] 0`. -/
theorem C1_fullsubtree_preorder (t : PTree) (extra : Nat) :
    runIter [t] (sizeT t + extra) (mkIter [t] (some [0]) [] false (-1))
      = preT t [0] 0 :=
  fullSubtree_root_preorder t extra

/-- C2, counterexample.  Claim C2 asserts that the set of nodes yielded in
ChildrenOnly mode equals the descendant set that a FullSubtree traversal of
the same start node yields.  Starting at leaf `A` (`[0, 0]`) of `R(A, B)`,
ChildrenOnly yields the empty set, while the FullSubtree traversal minus the
start node yields `{B}` — the two differ. -/
theorem C2_childrenonly_cex :
    (runIter exTreeAB 10 (mkIter exTreeAB (some [0, 0]) [] true (-1))).map Prod.fst = [] ∧
    ((runIter exTreeAB 10 (mkIter exTreeAB (some [0, 0]) [] false (-1))).map Prod.fst).filter
        (fun x => x ≠ some [0, 0]) = [some [0, 1]] ∧
    ([] : List (Option Addr)) ≠ [some [0, 1]] := by
  decide

/-- C2, amended.  A ChildrenOnly `ObjectIterator` (`children_only=True`, no
stop objects) over a start node yields exactly the proper descendants of the
start node — the start node itself excluded — in depth-first pre-order with
their true depths, terminating before ascending through the start node's
parent: the run equals `preL t.children a0 0 (a0.length)`. -/
theorem C2_childrenonly_descendants (f : Forest) (a0 : Addr) (t : PTree) (extra : Nat)
    (ht : getAt? f a0 = some t) :
    runIter f (sizeT t + extra) (mkIter f (some a0) [] true (-1))
      = preL t.children a0 0 (a0.length : Int) :=
  childrenOnly_descendants f a0 t extra ht

/-- Witness for C2 (amended), at the concrete document `R(A)` started at `R`. -/
theorem C2_childrenonly_descendants_witness :
    runIter exRA (sizeT (PTree.node "R" 0 [PTree.node "A" 0 []]) + 0)
        (mkIter exRA (some [0]) [] true (-1))
      = preL (PTree.node "R" 0 [PTree.node "A" 0 []]).children [0] 0 ((([0] : Addr).length : Int)) :=
  C2_childrenonly_descendants exRA [0] (PTree.node "R" 0 [PTree.node "A" 0 []]) 0 rfl

/-- C9, counterexample.  Claim C9 says a null start node yields an empty
sequence in either scoping mode.  With `children_only=False` the `init` flag
is set, so the very first `next()` returns `(None, -1)` without any null
check: the sequence has one pair, not zero. -/
theorem C9_null_start_cex :
    runIter [] 5 (mkIter [] none [] false (-1)) = [(none, -1)] ∧
    runIter [] 5 (mkIter [] none [] false (-1)) ≠ [] := by
  decide

/-- C9, amended.  With a null start node, ChildrenOnly mode yields the empty
sequence (and raises nothing), while FullSubtree mode first yields the single
pair `(None, -1)` — the initial yield is unguarded — and then stops. -/
theorem C9_null_start_behaviour :
    (∀ (f : Forest) (fuel : Nat), runIter f fuel (mkIter f none [] true (-1)) = []) ∧
    (∀ (f : Forest) (fuel : Nat), runIter f (fuel + 1) (mkIter f none [] false (-1)) = [(none, -1)]) := by
  constructor
  · intro f fuel
    have hmk : mkIter f none [] true (-1)
        = { curobj := none, curlvl := -1, stopobjs := [none], init := false } := by
      simp [mkIter]
    rw [hmk, runIter_stop (step_none f (-1) [none])]
  · intro f fuel
    have hmk : mkIter f none [] false (-1)
        = { curobj := none, curlvl := -1, stopobjs := [], init := true } := by
      simp [mkIter]
    rw [hmk, runIter_emit (step_init f none (-1) []), runIter_stop (step_none f (-1) [])]

/-! ## `ObjectHierarchy`: building the path-indexed snapshot -/

/-- The parent-name collection loop of `ObjectHierarchy.__init__`:
`while opp: opp = opp.GetUp(); if opp: plist.append(opp.GetName())` — all
proper-ancestor names, bottom-up, up to the very top of the document.  The
fuel only makes the recursion structural; `a.length` (used by `ancNames`)
never runs out, since each `GetUp` drops one address component. -/
def ancNamesGo (f : Forest) : Nat → Addr → List String
  | fuel, a =>
    match up? a with
    | none => []
    | some p =>
      match fuel with
      | 0 => []
      | fuel + 1 => nameAt f p :: ancNamesGo f fuel p

def ancNames (f : Forest) (a : Addr) : List String :=
  ancNamesGo f a.length a

/-- The index key `parent_path` computed in `ObjectHierarchy.__init__`: the
proper-ancestor names bottom-up, falling back to the node's own name when
there are none, then reversed and joined with `/`. -/
def parentKey (f : Forest) (a : Addr) : String :=
  let plist := ancNames f a
  let plist := if plist.isEmpty then [nameAt f a] else plist
  String.intercalate "/" plist.reverse

/-- The snapshot index: an insertion-ordered association of `parent_path`
keys to node lists, modelling the Python dict `hierarchy`. -/
abbrev Entries := List (String × List Addr)

/-- `if parent_path not in hierarchy: hierarchy[parent_path] = [];
hierarchy[parent_path].append(op)`. -/
def insertEntry : Entries → String → Addr → Entries
  | [], k, a => [(k, [a])]
  | (k', l) :: rest, k, a =>
    if k' = k then (k', l ++ [a]) :: rest else (k', l) :: insertEntry rest k a

/-- Lookup `hierarchy[k]` of the modelled dict: the node list of the first
entry for key `k`, `[]` when the key is absent. -/
def entVal : Entries → String → List Addr
  | [], _ => []
  | (k', l) :: rest, k => if k' = k then l else entVal rest k

/-- Python truthiness of the filter condition in `ObjectHierarchy.__init__`:
`filtertype is None or (filtertype and op.GetType() == filtertype)`. -/
def ftKeep (ft : Option Int) (ty : Int) : Bool :=
  match ft with
  | none => true
  | some v => (v != 0) && (ty == v)

/-- The indexing loop of `ObjectHierarchy.__init__` over the `(op, lvl)` pairs
of the driving iterator (`maxlvl` tracking omitted — it does not affect the
index).  `none` models the attribute error a null yielded object would raise
at `op.GetUp()`. -/
def hierLoop (f : Forest) (ft : Option Int) : List (Option Addr × Int) → Entries → Option Entries
  | [], es => some es
  | (none, _) :: _, _ => none
  | (some a, _) :: rest, es =>
    if ftKeep ft (otypeAt f a) then hierLoop f ft rest (insertEntry es (parentKey f a) a)
    else hierLoop f ft rest es

/-- Root selection of `ObjectHierarchy.__init__`: an explicit `rootobj` is
traversed with `children_only=True`; with `rootobj=None` the traversal starts
at `doc.GetFirstObject()` with `children_only=False`. -/
def rootStart (f : Forest) (rootobj : Option Addr) : Option Addr × Bool :=
  match rootobj with
  | none => (if f.isEmpty then none else some [0], false)
  | some a => (some a, true)

/-- The `(op, lvl)` pairs of the driving pass
`ObjectIterator(rootobj, children_only=children_only)`; the fuel
`sizeL f + 2` exceeds any possible number of yields. -/
def buildTrace (f : Forest) (rootobj : Option Addr) : List (Option Addr × Int) :=
  runIter f (sizeL f + 2) (mkIter f (rootStart f rootobj).1 [] (rootStart f rootobj).2 (-1))

/-- `ObjectHierarchy.__init__`: drive one iterator pass and build the index. -/
def buildHierarchy (f : Forest) (rootobj : Option Addr) (ft : Option Int) : Option Entries :=
  hierLoop f ft (buildTrace f rootobj) []

/-- Sum of the node-list lengths over all index entries. -/
def sumLens (es : Entries) : Nat :=
  (es.map (fun kv => kv.2.length)).sum

theorem insertEntry_sumLens (es : Entries) (k : String) (a : Addr) :
    sumLens (insertEntry es k a) = sumLens es + 1 := by
  induction es with
  | nil => simp [insertEntry, sumLens]
  | cons kv rest ih =>
    obtain ⟨k', l⟩ := kv
    by_cases h : k' = k
    · simp [insertEntry, h, sumLens]
      omega
    · simp only [insertEntry, if_neg h, sumLens, List.map_cons, List.sum_cons]
      simp only [sumLens] at ih
      omega

theorem insertEntry_flat_perm (es : Entries) (k : String) (a : Addr) :
    List.Perm ((insertEntry es k a).flatMap (fun kv => kv.2))
      (a :: es.flatMap (fun kv => kv.2)) := by
  induction es with
  | nil => simp [insertEntry]
  | cons kv rest ih =>
    obtain ⟨k', l⟩ := kv
    by_cases h : k' = k
    · simp only [insertEntry, if_pos h, List.flatMap_cons, List.append_assoc,
        List.singleton_append]
      exact List.perm_middle
    · simp only [insertEntry, if_neg h, List.flatMap_cons]
      exact (ih.append_left l).trans List.perm_middle

theorem hierLoop_unfiltered (f : Forest) :
    ∀ (trace : List (Option Addr × Int)) (es es' : Entries),
      hierLoop f none trace es = some es' →
      sumLens es' = sumLens es + trace.length ∧
      List.Perm (es'.flatMap (fun kv => kv.2))
        (es.flatMap (fun kv => kv.2) ++ trace.filterMap Prod.fst) := by
  intro trace
  induction trace with
  | nil =>
    intro es es' h
    simp only [hierLoop] at h
    cases h
    simp
  | cons p rest ih =>
    intro es es' h
    obtain ⟨op, lvl⟩ := p
    cases op with
    | none => simp [hierLoop] at h
    | some a =>
      simp only [hierLoop, ftKeep, if_pos] at h
      obtain ⟨h1, h2⟩ := ih _ _ h
      constructor
      · rw [h1, insertEntry_sumLens]
        simp only [List.length_cons]
        omega
      · have hmid : List.Perm
            ((insertEntry es (parentKey f a) a).flatMap (fun kv => kv.2) ++
              rest.filterMap Prod.fst)
            ((a :: es.flatMap (fun kv => kv.2)) ++ rest.filterMap Prod.fst) :=
          (insertEntry_flat_perm es (parentKey f a) a).append_right _
        refine h2.trans (hmid.trans ?_)
        have hfm : ((some a, lvl) :: rest).filterMap Prod.fst
            = a :: rest.filterMap Prod.fst := by simp
        rw [hfm]
        simpa using List.perm_middle.symm

theorem entVal_insertEntry (es : Entries) (k k0 : String) (a : Addr) :
    entVal (insertEntry es k0 a) k
      = entVal es k ++ (if k0 = k then [a] else []) := by
  induction es with
  | nil =>
    by_cases hk : k0 = k <;> simp [insertEntry, entVal, hk]
  | cons kv rest ih =>
    obtain ⟨k', l⟩ := kv
    by_cases h0 : k' = k0
    · subst h0
      by_cases hk : k' = k
      · subst hk
        simp [insertEntry, entVal]
      · simp [insertEntry, entVal, hk]
    · by_cases hk : k' = k
      · subst hk
        have hne : ¬ k0 = k' := fun hx => h0 hx.symm
        simp [insertEntry, entVal, h0, hne]
      · simp [insertEntry, entVal, h0, hk, ih]

theorem keys_insertEntry (es : Entries) (k0 : String) (a : Addr) :
    (insertEntry es k0 a).map Prod.fst
      = if k0 ∈ es.map Prod.fst then es.map Prod.fst
        else es.map Prod.fst ++ [k0] := by
  induction es with
  | nil => simp [insertEntry]
  | cons kv rest ih =>
    obtain ⟨k', l⟩ := kv
    by_cases h0 : k' = k0
    · subst h0
      simp [insertEntry]
    · have hne : ¬ k0 = k' := fun hx => h0 hx.symm
      by_cases hmem : k0 ∈ rest.map Prod.fst <;>
        simp [insertEntry, h0, hne, hmem, ih]

theorem nodup_insertEntry (es : Entries) (k0 : String) (a : Addr)
    (h : (es.map Prod.fst).Nodup) :
    ((insertEntry es k0 a).map Prod.fst).Nodup := by
  rw [keys_insertEntry]
  by_cases hmem : k0 ∈ es.map Prod.fst
  · simpa [hmem] using h
  · simp only [if_neg hmem]
    rw [List.nodup_append]
    exact ⟨h, List.nodup_singleton _, by simpa using fun hx => hmem hx⟩

theorem hierLoop_entVal (f : Forest) :
    ∀ (trace : List (Option Addr × Int)) (es es' : Entries),
      hierLoop f none trace es = some es' →
      ∀ k : String, entVal es' k
        = entVal es k
          ++ (trace.filterMap Prod.fst).filter (fun a => parentKey f a = k) := by
  intro trace
  induction trace with
  | nil =>
    intro es es' h k
    simp only [hierLoop] at h
    cases h
    simp
  | cons p rest ih =>
    intro es es' h k
    obtain ⟨op, lvl⟩ := p
    cases op with
    | none => simp [hierLoop] at h
    | some a =>
      simp only [hierLoop, ftKeep, if_pos] at h
      rw [ih _ _ h k, entVal_insertEntry]
      by_cases hk : parentKey f a = k <;>
        simp [hk, List.filter_cons]

theorem hierLoop_nodup (f : Forest) :
    ∀ (trace : List (Option Addr × Int)) (es es' : Entries),
      hierLoop f none trace es = some es' →
      (es.map Prod.fst).Nodup → (es'.map Prod.fst).Nodup := by
  intro trace
  induction trace with
  | nil =>
    intro es es' h hn
    simp only [hierLoop] at h
    cases h
    exact hn
  | cons p rest ih =>
    intro es es' h hn
    obtain ⟨op, lvl⟩ := p
    cases op with
    | none => simp [hierLoop] at h
    | some a =>
      simp only [hierLoop, ftKeep, if_pos] at h
      exact ih _ _ h (nodup_insertEntry es (parentKey f a) a hn)

/-- C3.  For a snapshot built with `filtertype=None`, every node yielded by
the driving traversal is appended to exactly one index entry's node list —
the keys are pairwise distinct and the list stored under each key `k` is
exactly the subsequence of yielded nodes whose key is `k`, in
traversal-encounter order — so the node lists taken together are a
permutation of the yielded nodes and the sum of node-list lengths equals the
number of yielded pairs. -/
theorem C3_index_completeness (f : Forest) (rootobj : Option Addr) (es : Entries)
    (h : buildHierarchy f rootobj none = some es) :
    sumLens es = (buildTrace f rootobj).length ∧
    (es.map Prod.fst).Nodup ∧
    (∀ k : String, entVal es k
      = ((buildTrace f rootobj).filterMap Prod.fst).filter
          (fun a => parentKey f a = k)) ∧
    List.Perm (es.flatMap (fun kv => kv.2)) ((buildTrace f rootobj).filterMap Prod.fst) := by
  obtain ⟨h1, h2⟩ := hierLoop_unfiltered f (buildTrace f rootobj) [] es h
  refine ⟨by simpa [sumLens] using h1, ?_, ?_, by simpa using h2⟩
  · exact hierLoop_nodup f (buildTrace f rootobj) [] es h (by simp)
  · intro k
    have hv := hierLoop_entVal f (buildTrace f rootobj) [] es h k
    simpa [entVal] using hv

/-- Witness for C3, on the snapshot of `R(A, B)` taken from `R`. -/
theorem C3_index_completeness_witness :
    sumLens [("R", [[0, 0], [0, 1]])] = (buildTrace exTreeAB (some [0])).length ∧
    (([("R", [[0, 0], [0, 1]])] : Entries).map Prod.fst).Nodup ∧
    entVal [("R", [[0, 0], [0, 1]])] "R"
      = ((buildTrace exTreeAB (some [0])).filterMap Prod.fst).filter
          (fun a => parentKey exTreeAB a = "R") ∧
    List.Perm (([("R", [[0, 0], [0, 1]])] : Entries).flatMap (fun kv => kv.2))
      ((buildTrace exTreeAB (some [0])).filterMap Prod.fst) :=
  have h := C3_index_completeness exTreeAB (some [0]) [("R", [[0, 0], [0, 1]])] (by decide)
  ⟨h.1, h.2.1, h.2.2.1 "R", h.2.2.2⟩

/-! ## Characterising the index keys (claim C4) -/

theorem up?_none_iff (a : Addr) : up? a = none ↔ a.length ≤ 1 := by
  match a with
  | [] => simp [up?]
  | [_] => simp [up?]
  | x :: y :: r => simp [up?]

theorem up?_of_big {a : Addr} (h : 2 ≤ a.length) : up? a = some a.dropLast := by
  match a with
  | [] => simp at h
  | [_] => simp at h
  | x :: y :: r => rfl

theorem ancNamesGo_succ {f : Forest} {a p : Addr} (h : up? a = some p) (fuel : Nat) :
    ancNamesGo f (fuel + 1) a = nameAt f p :: ancNamesGo f fuel p := by
  rw [ancNamesGo, h]

theorem ancNames_top {f : Forest} {a : Addr} (h : up? a = none) :
    ancNames f a = [] := by
  rw [ancNames, ancNamesGo, h]

theorem ancNames_up {f : Forest} {a p : Addr} (h : up? a = some p) :
    ancNames f a = nameAt f p :: ancNames f p := by
  rw [ancNames, up?_length_succ h, ancNamesGo_succ h, ancNames]

/-- The key-building loop walks to the very top of the document: the collected
list is exactly the names of the proper prefixes of the address, bottom-up. -/
theorem ancNames_eq (f : Forest) (a : Addr) :
    ancNames f a
      = ((List.range (a.length - 1)).map (fun k => nameAt f (a.take (k + 1)))).reverse := by
  suffices hs : ∀ (n : Nat) (a : Addr), a.length ≤ n →
      ancNames f a
        = ((List.range (a.length - 1)).map (fun k => nameAt f (a.take (k + 1)))).reverse by
    exact hs a.length a le_rfl
  intro n
  induction n with
  | zero =>
    intro a ha
    have h0 : a.length = 0 := by omega
    rw [ancNames_top ((up?_none_iff a).mpr (by omega))]
    simp [h0]
  | succ n ih =>
    intro a ha
    by_cases h1 : a.length ≤ 1
    · rw [ancNames_top ((up?_none_iff a).mpr h1)]
      have : a.length - 1 = 0 := by omega
      simp [this]
    · have h2 : 2 ≤ a.length := by omega
      have hup : up? a = some a.dropLast := up?_of_big h2
      have hpl : a.dropLast.length = a.length - 1 := List.length_dropLast a
      have hdn : a.dropLast.length ≤ n := by rw [hpl]; omega
      rw [ancNames_up hup, ih a.dropLast hdn]
      have hm : a.length - 1 = (a.dropLast.length - 1) + 1 := by omega
      rw [hm, List.range_succ]
      simp only [List.map_append, List.map_cons, List.map_nil, List.reverse_append,
        List.reverse_cons, List.reverse_nil, List.nil_append, List.singleton_append]
      have hdl : a.dropLast = a.take (a.length - 1) := List.dropLast_eq_take a
      congr 1
      · rw [← hm, ← List.dropLast_eq_take]
      · refine congrArg List.reverse (List.map_eq_map_iff.mpr ?_)
        intro k hk
        simp only [List.mem_range] at hk
        rw [hdl, List.take_take]
        congr 2
        omega

/-- Modelled from claim C4's wording (for comparison with the source-derived
`parentKey`, not from the source): walk parent links upward from the node,
stopping at and excluding the snapshot root, collecting ancestor names on the
way; fuel as in `ancNamesGo`. -/
def claimAncGo (f : Forest) (root : Addr) : Nat → Addr → List String
  | fuel, a =>
    match up? a with
    | none => []
    | some p =>
      if p = root then []
      else
        match fuel with
        | 0 => []
        | fuel + 1 => nameAt f p :: claimAncGo f root fuel p

/-- Modelled from claim C4's wording: the key the claim predicts — ancestors
strictly below the snapshot root, reversed, joined with `/`, with the node's
own name as fallback. -/
def claimKeyC4 (f : Forest) (root : Addr) (a : Addr) : String :=
  let l := claimAncGo f root a.length a
  String.intercalate "/" ((if l.isEmpty then [nameAt f a] else l).reverse)

/-- C4, counterexample.  For the snapshot of the document `R(A)` taken with
snapshot root `R`, the claim predicts that `A` (which has no ancestors under
the root) is keyed by its own name `"A"`; the code instead walks the parent
chain to the very top of the document without stopping at the snapshot root,
so `A` is indexed under `"R"` — the snapshot root's name is part of the key. -/
theorem C4_parent_path_cex :
    buildHierarchy exRA (some [0]) none = some [("R", [[0, 0]])] ∧
    parentKey exRA [0, 0] = "R" ∧
    claimKeyC4 exRA [0] [0, 0] = "A" ∧
    ("R" : String) ≠ "A" := by
  decide

/-- C4, amended.  The index key of a node at address `a` is obtained by
walking parent links from the node to the very top of the document — through
and beyond the snapshot root — collecting every proper ancestor's name,
reversing into top-down order and joining with `/`; only a node with no
parent at all (a top-level object) falls back to its own name as the key. -/
theorem C4_parent_path (f : Forest) (a : Addr) :
    parentKey f a
      = if a.length ≤ 1 then nameAt f a
        else String.intercalate "/"
          ((List.range (a.length - 1)).map (fun k => nameAt f (a.take (k + 1)))) := by
  unfold parentKey
  rw [ancNames_eq]
  by_cases h : a.length ≤ 1
  · have h0 : a.length - 1 = 0 := by omega
    simp only [h0, List.range_zero, List.map_nil, List.reverse_nil, List.isEmpty_nil,
      if_true, if_pos h]
    exact rfl
  · have h0 : a.length - 1 ≠ 0 := by omega
    have hne : ((List.range (a.length - 1)).map
        (fun k => nameAt f (a.take (k + 1)))).reverse.isEmpty = false := by
      simp [List.isEmpty_iff, List.range_eq_nil, h0]
    simp [hne, h]

/-! ## `ObjectHierarchy.get`: path resolution and pattern matching -/

/-- `'..' in path`: the string contains two adjacent dots. -/
def hasDotDotChars : List Char → Bool
  | '.' :: '.' :: _ => true
  | _ :: rest => hasDotDotChars rest
  | [] => false

def hasDotDot (s : String) : Bool :=
  hasDotDotChars s.data

/-- `path.strip()`: drop whitespace from both ends. -/
def pyStrip (s : String) : String :=
  ⟨((s.data.dropWhile Char.isWhitespace).reverse.dropWhile Char.isWhitespace).reverse⟩

/-- `path.split('/')`: the components between separators, keeping empties. -/
def splitGo (cur : List Char) : List Char → List String
  | [] => [⟨cur.reverse⟩]
  | c :: rest => if c = '/' then ⟨cur.reverse⟩ :: splitGo [] rest else splitGo (c :: cur) rest

def splitOnSlash (s : String) : List String :=
  splitGo [] s.data

/-- The backward scan of the `..` resolution in `ObjectHierarchy.get`: the
loop `for comp in reversed(comps)` with its `skip` flag, returning the kept
components in scan order. -/
def scanRev : List String → Bool → List String
  | [], _ => []
  | c :: rest, skp =>
    if c = ".." then scanRev rest true
    else if skp then scanRev rest false
    else c :: scanRev rest false

/-- The `..` resolution of `ObjectHierarchy.get`: split on the separator,
scan the components from the end backward, reverse the kept components back
into original order and re-join. -/
def resolveDotsStr (path : String) : String :=
  String.intercalate "/" ((scanRev (splitOnSlash path).reverse false).reverse)

/-- The effective path of `ObjectHierarchy.get`: `path.strip()`, then `..`
resolution when the literal substring `..` occurs. -/
def effPath (path : String) : String :=
  let p := pyStrip path
  if hasDotDot p then resolveDotsStr p else p

/-- Modelled from claim C5's wording (for comparison with the source-derived
`scanRev`): scanning from the end backward, each `..` component is dropped
together with the component immediately preceding it — so a component
survives iff it is not `..` and not immediately followed by `..`.  The flag
tells whether a virtual `..` follows the end of the list. -/
def dropDotsP : List String → Bool → List String
  | [], _ => []
  | [c], b => if c = ".." ∨ b then [] else [c]
  | c :: d :: rest, b =>
    (if c = ".." ∨ d = ".." then [] else [c]) ++ dropDotsP (d :: rest) b

/-- Tokens of the regular-expression fragment that the compiled patterns live
in: `.` (any one character), `.*` / `.*?` (any sequence), literal characters. -/
inductive RTok : Type where
  | dot : RTok
  | star : RTok
  | lit : Char → RTok
deriving Repr, DecidableEq

/-- Regex metacharacters (beyond the handled `.`) that the model does not
interpret: a pattern containing one outside the handled positions falls
outside the modelled fragment. -/
def isMeta (c : Char) : Bool :=
  c ∈ ['*', '?', '+', '(', ')', '[', ']', '\x7b', '\x7d', '|', '\\', '^', '$']

/-- Parse a pattern string of the modelled fragment into tokens: `.*?` and
`.*` become a star, a bare `.` an any-one-char, any non-metacharacter a
literal; anything else is out of the fragment. -/
def parsePat : List Char → Option (List RTok)
  | [] => some []
  | [c] =>
    if c = '.' then some [RTok.dot]
    else if isMeta c then none
    else some [RTok.lit c]
  | c :: c2 :: rest =>
    if c = '.' then
      if c2 = '*' then
        match rest with
        | c3 :: rest3 =>
          if c3 = '?' then (parsePat rest3).map (fun ts => RTok.star :: ts)
          else (parsePat (c3 :: rest3)).map (fun ts => RTok.star :: ts)
        | [] => some [RTok.star]
      else (parsePat (c2 :: rest)).map (fun ts => RTok.dot :: ts)
    else if isMeta c then none
    else (parsePat (c2 :: rest)).map (fun ts => RTok.lit c :: ts)

/-- Fuel-counted matcher core: every recursive call strictly decreases
`p.length + k.length`, so with fuel above that sum the zero case is never
reached and the function computes ordinary backtracking regex matching.
Python's `.` (and hence the characters a `.*?` consumes) never matches a
newline without `re.DOTALL`, so the `dot` and `star` tokens refuse `'\n'`. -/
def reMatchGo : Nat → List RTok → List Char → Bool
  | 0, _, _ => false
  | _ + 1, [], [] => true
  | _ + 1, [], _ :: _ => false
  | _ + 1, RTok.dot :: _, [] => false
  | fuel + 1, RTok.dot :: ps, k :: ks => !(k = '\n') && reMatchGo fuel ps ks
  | fuel + 1, RTok.star :: ps, [] => reMatchGo fuel ps []
  | fuel + 1, RTok.star :: ps, k :: ks =>
      reMatchGo fuel ps (k :: ks) || (!(k = '\n') && reMatchGo fuel (RTok.star :: ps) ks)
  | _ + 1, RTok.lit _ :: _, [] => false
  | fuel + 1, RTok.lit c :: ps, k :: ks => (c = k) && reMatchGo fuel ps ks

/-- Whether a token list matches a complete character list. -/
def reMatch (p : List RTok) (k : List Char) : Bool :=
  reMatchGo (p.length + k.length + 1) p k

/-- `re.match('^' + body + '$', key)` with Python semantics on the modelled
fragment: the pattern must cover the whole key, except that `$` also matches
just before one trailing newline. -/
def pyMatchKey (toks : List RTok) (key : String) : Bool :=
  reMatch toks key.data ||
    (match key.data.getLast? with
     | some c => (c = '\n') && reMatch toks key.data.dropLast
     | none => false)

/-- The wildcard translation `path.replace('?', '.').replace('*', '.*?')` of
`ObjectHierarchy.get`, as one character-level pass (neither replace
re-processes the other's output, so the single pass is equivalent). -/
def xlateL : List Char → List Char
  | [] => []
  | c :: rest =>
    (if c = '?' then ['.'] else if c = '*' then ['.', '*', '?'] else [c]) ++ xlateL rest

/-- Leading `^` and trailing `$` anchors of a verbatim pattern are vacuous
inside the `'^%s$'` wrapper; the model strips them before parsing. -/
def dropTailDollars (l : List Char) : List Char :=
  (l.reverse.dropWhile (fun c => c = '$')).reverse

/-- The pattern body of `ObjectHierarchy.get`: verbatim (after `!`) or
wildcard-translated. -/
def bodyChars (p : String) : List Char :=
  match p.data with
  | [] => []
  | c :: rest =>
    if c = '!' then dropTailDollars (rest.dropWhile (fun x => x = '^'))
    else xlateL p.data

/-- `ObjectHierarchy.get`: trim, resolve `..`, compile (verbatim after `!`,
else wildcard translation), anchor as `'^%s$'`, and concatenate the node
lists of all matching keys in entry order.  `none` models a raised exception
— the `IndexError` of `path[0]` on a path that is empty after resolution — or
a pattern outside the modelled regex fragment. -/
def hget (es : Entries) (path : String) : Option (List Addr) :=
  let p := effPath path
  if p = "" then none
  else
    match parsePat (bodyChars p) with
    | none => none
    | some toks =>
      some ((es.filter (fun kv => pyMatchKey toks kv.1)).flatMap (fun kv => kv.2))

/-- Fuel-counted core of the claim-modelled wildcard matcher; same fuel
discipline as `reMatchGo`. -/
def wcLitGo : Nat → List Char → List Char → Bool
  | 0, _, _ => false
  | _ + 1, [], [] => true
  | _ + 1, [], _ :: _ => false
  | fuel + 1, c :: ps, ks =>
      if c = '?' then
        match ks with
        | [] => false
        | _ :: ks' => wcLitGo fuel ps ks'
      else if c = '*' then
        match ks with
        | [] => wcLitGo fuel ps []
        | k :: ks' => wcLitGo fuel ps (k :: ks') || wcLitGo fuel ('*' :: ps) ks'
      else
        match ks with
        | [] => false
        | k :: ks' => (c = k) && wcLitGo fuel ps ks'

/-- Modelled from claim C6's wording: `?` matches exactly one character, `*`
any sequence of characters, and every other character only itself. -/
def wcLitMatch (p k : List Char) : Bool :=
  wcLitGo (p.length + k.length + 1) p k

/-! ## Claim C5: resolution of `..` segments -/

theorem dropDotsP_snoc (ys : List String) (x : String) (b : Bool) :
    dropDotsP (ys ++ [x]) b
      = dropDotsP ys (x == "..") ++ (if x = ".." ∨ b then [] else [x]) := by
  induction ys with
  | nil => simp [dropDotsP]
  | cons y ys ih =>
    cases ys with
    | nil =>
      by_cases hx : x = ".." <;> by_cases hy : y = ".." <;>
        simp [dropDotsP, hx, hy]
    | cons z ys' =>
      rw [List.cons_append] at ih
      simp only [List.cons_append, dropDotsP, List.append_eq]
      rw [ih]
      simp [List.append_assoc]

theorem scanRev_eq (rl : List String) (b : Bool) :
    scanRev rl b = (dropDotsP rl.reverse b).reverse := by
  induction rl generalizing b with
  | nil => simp [scanRev, dropDotsP]
  | cons x l ih =>
    by_cases hx : x = ".."
    · have hx' : (x == "..") = true := by simp [hx]
      simp [scanRev, hx, hx', ih, dropDotsP_snoc]
    · have hx' : (x == "..") = false := by simp [hx]
      cases b <;> simp [scanRev, hx, hx', ih, dropDotsP_snoc]

/-- C5.  When the query expression contains the substring `..`,
`ObjectHierarchy.get` resolves it purely textually before any pattern
compilation: it splits on `/` and scans the components from the end backward,
dropping each `..` component together with the component immediately
preceding it (components merely containing two dots are untouched); the
result, in original order, is what gets compiled.  In particular
`"a/b/../c"` resolves to `"a/c"`. -/
theorem C5_dotdot_resolution :
    (∀ comps : List String, (scanRev comps.reverse false).reverse = dropDotsP comps false) ∧
    (∀ path : String, hasDotDot (pyStrip path) = true →
      effPath path
        = String.intercalate "/" (dropDotsP (splitOnSlash (pyStrip path)) false)) ∧
    effPath "a/b/../c" = "a/c" := by
  refine ⟨?_, ?_, ?_⟩
  · intro comps
    rw [scanRev_eq]
    simp
  · intro path h
    simp only [effPath, h, if_true, resolveDotsStr, scanRev_eq]
    simp
  · decide

/-- Witness for C5, at the claim's own instance. -/
theorem C5_dotdot_resolution_witness :
    effPath "a/b/../c"
      = String.intercalate "/" (dropDotsP (splitOnSlash (pyStrip "a/b/../c")) false) :=
  C5_dotdot_resolution.2.1 "a/b/../c" (by decide)

/-! ## Claim C6: wildcard compilation -/

/-- An expression character handled by the wildcard translation: `?`, `*`, or
any character that is not a regex metacharacter. -/
def wcOK (c : Char) : Bool :=
  c = '?' || c = '*' || !(isMeta c)

/-- The token the compiled pattern ends up with for one expression character:
`?` and `.` become any-one-char, `*` a star, anything else itself literally. -/
def wcTok (c : Char) : RTok :=
  if c = '?' ∨ c = '.' then RTok.dot else if c = '*' then RTok.star else RTok.lit c

theorem parse_dot_xlate (rest : List Char) :
    parsePat ('.' :: xlateL rest) = (parsePat (xlateL rest)).map (fun ts => RTok.dot :: ts) := by
  cases rest with
  | nil => simp [xlateL, parsePat]
  | cons c2 r2 =>
    by_cases hq : c2 = '?'
    · have hx : xlateL (c2 :: r2) = '.' :: xlateL r2 := by simp [xlateL, hq]
      rw [hx]
      conv_lhs => rw [parsePat.eq_def]
      simp
    · by_cases hs : c2 = '*'
      · have hx : xlateL (c2 :: r2) = '.' :: '*' :: '?' :: xlateL r2 := by
          simp [xlateL, hq, hs]
        rw [hx]
        conv_lhs => rw [parsePat.eq_def]
        simp
      · have hx : xlateL (c2 :: r2) = c2 :: xlateL r2 := by simp [xlateL, hq, hs]
        rw [hx]
        conv_lhs => rw [parsePat.eq_def]
        simp [hs]

/-- The wildcard pipeline produces exactly the expected tokens: `?` and the
unescaped `.` both compile to "any one character", `*` to "any sequence",
and the remaining (non-metacharacter) characters to literals. -/
theorem parse_xlate (l : List Char) (h : ∀ c ∈ l, wcOK c = true) :
    parsePat (xlateL l) = some (l.map wcTok) := by
  induction l with
  | nil => simp [xlateL, parsePat]
  | cons c rest ih =>
    have hc : wcOK c = true := h c (by simp)
    have hr : ∀ x ∈ rest, wcOK x = true := fun x hx => h x (by simp [hx])
    by_cases hq : c = '?'
    · subst hq
      have hx : xlateL ('?' :: rest) = '.' :: xlateL rest := by simp [xlateL]
      rw [hx, parse_dot_xlate, ih hr]
      simp [wcTok]
    · by_cases hs : c = '*'
      · subst hs
        have hx : xlateL ('*' :: rest) = '.' :: '*' :: '?' :: xlateL rest := by
          simp [xlateL]
        rw [hx]
        conv_lhs => rw [parsePat.eq_def]
        simp [ih hr, wcTok]
      · by_cases hd : c = '.'
        · subst hd
          have hx : xlateL ('.' :: rest) = '.' :: xlateL rest := by simp [xlateL]
          rw [hx, parse_dot_xlate, ih hr]
          simp [wcTok]
        · have hm : isMeta c = false := by
            simp only [wcOK, hq, hs] at hc
            simpa using hc
          have hx : xlateL (c :: rest) = c :: xlateL rest := by simp [xlateL, hq, hs]
          rw [hx]
          cases hXr : xlateL rest with
          | nil =>
            have h0 := ih hr
            rw [hXr] at h0
            have hmap : List.map wcTok rest = [] := by
              have := h0.symm
              simp only [parsePat] at this
              exact Option.some_inj.mp this
            conv_lhs => rw [parsePat.eq_def]
            simp [hd, hm, wcTok, hq, hs, hmap]
          | cons d X2 =>
            have h0 := ih hr
            rw [hXr] at h0
            conv_lhs => rw [parsePat.eq_def]
            simp [hd, hm, h0, wcTok, hq, hs]

/-- Key sets for the wildcard instances of claim C6. -/
def exKeys6 : Entries := [("a/b", [[0]]), ("a/bc", [[1]]), ("a/", [[2]]), ("ax/b", [[3]])]

/-- A snapshot index with the single key `abc`. -/
def exAbc : Entries := [("abc", [[0], [0, 0]])]

/-- C6, counterexample.  Claim C6 says every character other than `?` and `*`
matches only itself literally.  But the characters are passed into the regex
unescaped, so `.` keeps its regex meaning: the query `"a.c"` matches the key
`"abc"` and `get` returns its nodes, while the claim's literal reading
(modelled by `wcLitMatch`) matches nothing. -/
theorem C6_literal_cex :
    hget exAbc "a.c" = some [[0], [0, 0]] ∧
    wcLitMatch ("a.c".data) ("abc".data) = false ∧
    (exAbc.filter (fun kv => wcLitMatch ("a.c".data) kv.1.data)).flatMap (fun kv => kv.2)
      = [] := by
  decide

/-- C6, amended.  For a query without `!`: `?` compiles to "exactly one
character other than newline" (Python's `.` without `re.DOTALL`), `*` to
"any sequence of non-newline characters (non-greedy, which does not affect
matching)", and the other characters are inserted unescaped — so `.` also
means "any one non-newline character", while non-metacharacters match
themselves literally.  The claim's instances hold: `"a/*"` matches the keys
`"a/b"`, `"a/bc"`, `"a/"` but not `"ax/b"`, and `"a/?"` matches `"a/b"` but
not `"a/bc"`. -/
theorem C6_wildcard_translation :
    (∀ l : List Char, (∀ c ∈ l, wcOK c = true) → parsePat (xlateL l) = some (l.map wcTok)) ∧
    (∀ c : Char, reMatch [RTok.dot] [c] = !(c = '\n')) ∧
    hget exKeys6 "a/*" = some [[0], [1], [2]] ∧
    hget exKeys6 "a/?" = some [[0]] := by
  refine ⟨fun l h => parse_xlate l h, fun c => ?_, by decide, by decide⟩
  rw [show reMatch [RTok.dot] [c] = (!(c = '\n') && true) from rfl, Bool.and_true]

/-- Witness for C6 (amended), at the claim's own wildcard expression. -/
theorem C6_wildcard_translation_witness :
    parsePat (xlateL ("a/*".data)) = some (("a/*".data).map wcTok) :=
  C6_wildcard_translation.1 ("a/*".data) (by decide)

/-! ## Claim C7: full-match semantics of `ObjectHierarchy.get` -/

theorem reMatchGo_congr (f1 : Nat) :
    ∀ (f2 : Nat) (p : List RTok) (k : List Char),
      p.length + k.length < f1 → p.length + k.length < f2 →
      reMatchGo f1 p k = reMatchGo f2 p k := by
  induction f1 with
  | zero => intro f2 p k h1 _; exact absurd h1 (Nat.not_lt_zero _)
  | succ f1 ih =>
    intro f2 p k h1 h2
    cases f2 with
    | zero => exact absurd h2 (Nat.not_lt_zero _)
    | succ f2 =>
      cases p with
      | nil =>
        cases k with
        | nil => rfl
        | cons c ks => rfl
      | cons t ps =>
        cases t with
        | dot =>
          cases k with
          | nil => rfl
          | cons c ks =>
            simp only [reMatchGo]
            have e : reMatchGo f1 ps ks = reMatchGo f2 ps ks := by
              refine ih f2 ps ks ?_ ?_ <;>
                simp only [List.length_cons] at h1 h2 <;> omega
            rw [e]
        | star =>
          cases k with
          | nil =>
            simp only [reMatchGo]
            refine ih f2 ps [] ?_ ?_ <;>
              simp only [List.length_cons, List.length_nil] at h1 h2 ⊢ <;> omega
          | cons c ks =>
            simp only [reMatchGo]
            have e1 : reMatchGo f1 ps (c :: ks) = reMatchGo f2 ps (c :: ks) := by
              refine ih f2 ps (c :: ks) ?_ ?_ <;>
                simp only [List.length_cons] at h1 h2 ⊢ <;> omega
            have e2 : reMatchGo f1 (RTok.star :: ps) ks
                = reMatchGo f2 (RTok.star :: ps) ks := by
              refine ih f2 (RTok.star :: ps) ks ?_ ?_ <;>
                simp only [List.length_cons] at h1 h2 ⊢ <;> omega
            rw [e1, e2]
        | lit c0 =>
          cases k with
          | nil => rfl
          | cons c ks =>
            simp only [reMatchGo]
            have e : reMatchGo f1 ps ks = reMatchGo f2 ps ks := by
              refine ih f2 ps ks ?_ ?_ <;>
                simp only [List.length_cons] at h1 h2 <;> omega
            rw [e]

theorem reMatch_lit_cons (c : Char) (ps : List RTok) (k : Char) (ks : List Char) :
    reMatch (RTok.lit c :: ps) (k :: ks) = ((c = k) && reMatch ps ks) := by
  unfold reMatch
  simp only [List.length_cons, reMatchGo]
  congr 1
  refine reMatchGo_congr _ _ _ _ ?_ ?_ <;> omega

theorem reMatch_lits (cs : List Char) :
    ∀ ks : List Char, reMatch (cs.map RTok.lit) ks = true ↔ ks = cs := by
  induction cs with
  | nil =>
    intro ks
    cases ks with
    | nil => simp [reMatch, reMatchGo]
    | cons k ks => simp [reMatch, reMatchGo]
  | cons c cs ih =>
    intro ks
    cases ks with
    | nil =>
      simp only [List.map_cons]
      rw [show reMatch (RTok.lit c :: cs.map RTok.lit) [] = false from rfl]
      simp
    | cons k ks =>
      rw [List.map_cons, reMatch_lit_cons, Bool.and_eq_true, decide_eq_true_eq,
        ih ks, List.cons.injEq]
      constructor
      · rintro ⟨h1, h2⟩; exact ⟨h1.symm, h2⟩
      · rintro ⟨h1, h2⟩; exact ⟨h1.symm, h2⟩

theorem pyMatchKey_lits (cs : List Char) (key : String) :
    pyMatchKey (cs.map RTok.lit) key = true ↔
      key.data = cs ∨ key.data = cs ++ ['\n'] := by
  unfold pyMatchKey
  rcases List.eq_nil_or_concat key.data with h | ⟨L, b, h⟩
  · rw [h]
    simp [reMatch_lits]
  · rw [List.concat_eq_append] at h
    rw [h, List.getLast?_concat, List.dropLast_concat]
    simp only [Bool.or_eq_true, Bool.and_eq_true, decide_eq_true_eq, reMatch_lits]
    have key2 : L ++ [b] = cs ++ ['\n'] ↔ L = cs ∧ b = '\n' := by
      constructor
      · intro hx
        have h1 := congrArg List.dropLast hx
        have h2 := congrArg List.getLast? hx
        rw [List.dropLast_concat, List.dropLast_concat] at h1
        rw [List.getLast?_concat, List.getLast?_concat] at h2
        exact ⟨h1, Option.some_inj.mp h2⟩
      · rintro ⟨h1, h2⟩; rw [h1, h2]
    rw [key2]
    tauto

/-- C7, counterexample.  Claim C7 says a key counts as a match only if the
compiled pattern matches the complete key string.  But Python's `'$'` anchor
also matches just before one trailing newline, so the query `"a/b"` does
match the index key `"a/b\n"`, which is a proper prefix match, and `get`
returns that key's nodes. -/
theorem C7_full_match_cex :
    hget [("a/b\n", [[7]])] "a/b" = some [[7]] ∧ ("a/b\n" : String) ≠ "a/b" := by
  decide

/-- C7, amended.  A key matches a literal (wildcard-free, non-metacharacter)
query exactly when it equals the whole query string or the query string plus
one trailing newline; matching is case-sensitive and proper prefix/suffix
matches other than the trailing-newline case never qualify.  In particular
`"a/b"` matches neither `"a/bc"` nor `"xa/b"` and `get` returns `[]`. -/
theorem C7_full_match :
    (∀ (cs : List Char) (key : String),
        pyMatchKey (cs.map RTok.lit) key = true ↔
          key.data = cs ∨ key.data = cs ++ ['\n']) ∧
    hget [("a/bc", [[0]]), ("xa/b", [[1]])] "a/b" = some [] := by
  refine ⟨pyMatchKey_lits, ?_⟩
  decide

/-! ## Claim C8: queries matching zero keys -/

/-- C8, counterexample.  `get` evaluates `path[0]` after stripping and
`..`-resolution; when the resolved path is the empty string — e.g. for the
expressions `"a/.."` and `""`, both of which match zero index keys — this
raises `IndexError` instead of returning an empty list.  `none` models the
raised exception. -/
theorem C8_empty_path_cex :
    hget [("a", [[0]])] "a/.." = none ∧ hget [("a", [[0]])] "" = none := by
  decide

/-- C8, amended.  For an expression whose resolved path is nonempty and whose
compiled pattern matches none of the index keys, `get` raises nothing and
returns the empty list. -/
theorem C8_unmatched_empty (es : Entries) (path : String)
    (h1 : effPath path ≠ "") (toks : List RTok)
    (h2 : parsePat (bodyChars (effPath path)) = some toks)
    (h3 : ∀ kv ∈ es, pyMatchKey toks kv.1 = false) :
    hget es path = some [] := by
  unfold hget
  simp only [if_neg h1, h2]
  have hf : es.filter (fun kv => pyMatchKey toks kv.1) = [] := by
    rw [List.filter_eq_nil_iff]
    intro kv hkv
    simp [h3 kv hkv]
  rw [hf]
  rfl

/-- Witness for C8 (amended): the query `"zzz"` matches no key of a snapshot
whose only key is `"x"`, and `get` returns the empty list. -/
theorem C8_unmatched_empty_witness :
    hget [("x", [[0]])] "zzz" = some [] :=
  C8_unmatched_empty [("x", [[0]])] "zzz" (by decide)
    [RTok.lit 'z', RTok.lit 'z', RTok.lit 'z'] (by decide) (by decide)

/-! ## Claim C10: `getNextObject` with the default `stopobjs` -/

/-- Loop `while (not obj.GetNext() and obj.GetUp() and obj.GetUp() not in
stopobjs)` of `getNextObject` for a list `stopobjs`: `none` models the
`return None` in the loop body, `some b` the object held in `obj` when the
loop exits.  The fuel `a.length` used by the caller bounds the number of
`GetUp` steps. -/
def gnoClimb (f : Forest) (S : List (Option Addr)) : Nat → Addr → Option Addr
  | 0, a => some a
  | fuel + 1, a =>
    match next? f a with
    | some _ => some a
    | none =>
      match up? a with
      | none => some a
      | some p =>
        if some p ∈ S then some a
        else if some a ∈ S ∨ some p ∈ S then none
        else gnoClimb f S fuel p

/-- `getNextObject(obj, stopobjs)` of `objects.py`.  `stopobjs = none` models
the Python default `None` and `Except.error ()` the `TypeError` raised by an
`in None` membership test: a non-null `obj` with a first child reaches
`obj.GetNext() in stopobjs`, one without reaches `obj in stopobjs`, and both
raise when `stopobjs` is `None`.  The `stopobjs is None` climb loop of the
source is unreachable for that reason, so only the list-valued climb loop
appears. -/
def getNextObject (f : Forest) (obj : Option Addr)
    (stopobjs : Option (List (Option Addr))) : Except Unit (Option Addr) :=
  match obj with
  | none => Except.ok none
  | some a =>
    match down? f a with
    | some d =>
      match stopobjs with
      | none => Except.error ()
      | some S =>
        if next? f a ∈ S ∨ some d ∈ S then Except.ok none
        else Except.ok (some d)
    | none =>
      match stopobjs with
      | none => Except.error ()
      | some S =>
        if some a ∈ S then Except.ok none
        else
          match gnoClimb f S a.length a with
          | none => Except.ok none
          | some b =>
            match next? f b with
            | some nx => if some nx ∈ S then Except.ok none else Except.ok (some nx)
            | none => Except.ok none

theorem getNextObject_default (f : Forest) (a : Addr) :
    getNextObject f (some a) none = Except.error () := by
  cases h : down? f a <;> simp [getNextObject, h]

/-- Loop of `getActiveObjects`: collect active objects while stepping with
`getNextObject(obj)` — i.e. with the default `stopobjs=None`.  `active`
abstracts `obj.GetBit(c4d.BIT_ACTIVE)`. -/
def gaoGo (f : Forest) (active : Addr → Bool) :
    Nat → Option Addr → List Addr → Except Unit (List Addr)
  | _, none, acc => Except.ok acc.reverse
  | 0, some _, _ => Except.error ()
  | fuel + 1, some a, acc =>
    match getNextObject f (some a) none with
    | Except.error _ => Except.error ()
    | Except.ok nxt => gaoGo f active fuel nxt (if active a then a :: acc else acc)

/-- `getActiveObjects(doc)` of `objects.py`: start at the document's first
object and walk with `getNextObject(obj)`. -/
def getActiveObjects (f : Forest) (active : Addr → Bool) (fuel : Nat) :
    Except Unit (List Addr) :=
  match f with
  | [] => Except.ok []
  | _ :: _ => gaoGo f active fuel (some [0]) []

/-- Loop of `findObjects`: collect objects named `nm` while stepping with
`getNextObject(obj)` — again with the default `stopobjs=None`. -/
def findObjectsGo (f : Forest) (nm : String) :
    Nat → Option Addr → List Addr → Except Unit (List Addr)
  | _, none, acc => Except.ok acc.reverse
  | 0, some _, _ => Except.error ()
  | fuel + 1, some a, acc =>
    match getNextObject f (some a) none with
    | Except.error _ => Except.error ()
    | Except.ok nxt => findObjectsGo f nm fuel nxt (if nameAt f a = nm then a :: acc else acc)

/-- `findObjects(name)` of `objects.py` on a document with objects: start at
the first object and walk with `getNextObject(obj)`. -/
def findObjectsM (f : Forest) (nm : String) (fuel : Nat) : Except Unit (List Addr) :=
  match f with
  | [] => Except.ok []
  | _ :: _ => findObjectsGo f nm fuel (some [0]) []

/-- C10: with the default `stopobjs=None`, `getNextObject` on any object with
a first child raises `TypeError` (modelled `Except.error ()`) instead of
returning the child, because the next sibling and the first child are tested
for membership in `None`; consequently `getActiveObjects` and `findObjects`,
which always call `getNextObject(obj)` without stop objects, fail on every
document whose object tree is nonempty — in particular on any tree containing
a node with children. -/
theorem C10_default_stopobjs (f : Forest) (a d : Addr) (h : down? f a = some d)
    (active : Addr → Bool) (nm : String) (fuel : Nat) (hne : f ≠ []) :
    getNextObject f (some a) none = Except.error () ∧
    getActiveObjects f active (fuel + 1) = Except.error () ∧
    findObjectsM f nm (fuel + 1) = Except.error () := by
  refine ⟨by simp [getNextObject, h], ?_, ?_⟩
  · cases f with
    | nil => exact absurd rfl hne
    | cons t ts => simp [getActiveObjects, gaoGo, getNextObject_default]
  · cases f with
    | nil => exact absurd rfl hne
    | cons t ts => simp [findObjectsM, findObjectsGo, getNextObject_default]

/-- Witness for C10 at a two-node tree whose root has one child. -/
theorem C10_default_stopobjs_witness :
    getNextObject exRA (some [0]) none = Except.error () ∧
    getActiveObjects exRA (fun _ => true) 4 = Except.error () ∧
    findObjectsM exRA "A" 4 = Except.error () :=
  C10_default_stopobjs exRA [0] [0, 0] (by decide) (fun _ => true) "A" 3
    (by simp [exRA])
